import Mathlib

/-!
Verification of the keyword-deduplication pipeline in `key-dedupe.py`.

The program reads keyword metadata from image files, lowercases and
singularizes the keywords, groups synonyms, picks a canonical
representative per group by corpus frequency, and rewrites changed files.

Embedding conventions:
* Python `str` is Lean `String`; `str.lower()` and `str.replace('_',' ')`
  are modelled character-wise on `String.data` (which is what they do),
  so that every definition evaluates by kernel reduction.
* Python `dict` (insertion-ordered, assignment overwrites in place) is an
  association list `List (String × β)` with unique keys, mutated by
  `dictSet`.
* A Python `set` is represented by a duplicate-free `List String`;
  iteration order of a set is unspecified in Python, and is determinized
  here as first-occurrence order (`firstOccs`).  Set equality (`==`/`!=`
  on Python sets) is extensional equality, `setEq`.
* `collections.Counter(l)` is represented by the underlying list `l`:
  its keys are `firstOccs l` (first-encounter insertion order), the count
  of `q` is `countOcc l q`, and `q in counter` is `q ∈ l`.
* External services are parameters:
  - `sn : String → Option String` models `inflect.engine().singular_noun`,
    which returns `False` (here `none`) or a string (here `some s`);
    Python truthiness of the result is `s ≠ ""`.
  - `lemmas : String → List String` models the WordNet lemma-name
    enumeration `[lemma.name() for syn in wordnet.synsets(w) for lemma in
    syn.lemmas()]`.
  - `et : String → Except String Metadata` models
    `ExifToolHelper.get_metadata` (one metadata dict per path, or an
    exception carrying a message).
-/

/-- Character-wise model of Python `str.lower()`. -/
def strLower (s : String) : String := ⟨s.data.map Char.toLower⟩

/-- Character-wise model of Python `str.replace('_', ' ')` (the pattern is a
single character, so the replacement is character-wise). -/
def strReplaceUS (s : String) : String :=
  ⟨s.data.map (fun c => if c = '_' then ' ' else c)⟩

/-- Lookup in an association list modelling a Python `dict`. -/
def lookup? {β : Type} : List (String × β) → String → Option β
  | [], _ => none
  | (k, v) :: rest, q => if k = q then some v else lookup? rest q

/-- Python `q in d` for a dict `d`. -/
def hasKey {β : Type} (d : List (String × β)) (q : String) : Bool :=
  (lookup? d q).isSome

/-- Python `d[k] = v`: overwrite in place if the key exists, else append. -/
def dictSet {β : Type} : List (String × β) → String → β → List (String × β)
  | [], k, v => [(k, v)]
  | (k', v') :: rest, k, v =>
    if k' = k then (k', v) :: rest else (k', v') :: dictSet rest k v

/-- Auxiliary recursion for `firstOccs`, carrying the elements seen so far. -/
def firstOccsAux (seen : List String) : List String → List String
  | [] => []
  | x :: xs =>
    if x ∈ seen then firstOccsAux seen xs
    else x :: firstOccsAux (x :: seen) xs

/-- The distinct elements of `l` in first-occurrence order.  This is both the
key order of a Python dict/`Counter` built from `l` and our determinization of
iterating a Python set built from `l`. -/
def firstOccs (l : List String) : List String := firstOccsAux [] l

/-- Multiplicity of `q` in `l`: the count stored by `Counter(l)` (0 for a
missing key, exactly as `Counter.__getitem__`). -/
def countOcc (l : List String) (q : String) : Nat :=
  (l.filter (fun x => decide (x = q))).length

/-- Python `set(a) == set(b)`: extensional equality of the represented sets. -/
def setEq (a b : List String) : Bool :=
  a.all (fun x => decide (x ∈ b)) && b.all (fun x => decide (x ∈ a))

/-- `handle_plurals` from `key-dedupe.py`:
`singular = p.singular_noun(word); return singular if singular else word`.
`sn` is the `singular_noun` service; Python truthiness makes an empty-string
result fall back to `word`. -/
def handle_plurals (sn : String → Option String) (word : String) : String :=
  match sn word with
  | some singular => if singular = "" then word else singular
  | none => word

/-- `get_synonyms` from `key-dedupe.py`: the set of
`lemma.name().lower().replace('_', ' ')` over all lemmas of all synsets of
`word`.  `lemmas` is the WordNet enumeration; the resulting set is listed in
first-occurrence order. -/
def get_synonyms (lemmas : String → List String) (word : String) : List String :=
  firstOccs ((lemmas word).map (fun n => strReplaceUS (strLower n)))

/-- A value stored under one metadata field: Python code distinguishes
`isinstance(value, list)` from a scalar. -/
inductive MetaValue where
  | scalar : String → MetaValue
  | list : List String → MetaValue

/-- A file's metadata dict, as returned by `et.get_metadata(path)[0]`. -/
def Metadata : Type := String → Option MetaValue

/-- `METADATA_FIELDS` from `key-dedupe.py`. -/
def METADATA_FIELDS : List String :=
  ["XMP:Subject", "IPTC:Keywords", "MWG:Keywords", "Keywords"]

/-- The elements merged into the keyword set from one field: nothing if the
field is absent, the single element for a scalar, all elements for a list. -/
def fieldValues (md : Metadata) (field : String) : List String :=
  match md field with
  | none => []
  | some (.scalar s) => [s]
  | some (.list l) => l

/-- `extract_keywords` from `key-dedupe.py` (given the already-fetched
metadata): build the set of all field values over `METADATA_FIELDS`, then
`{keyword.lower() for keyword in keywords if keyword}`. -/
def extract_keywords (md : Metadata) : List String :=
  firstOccs
    (((firstOccs (METADATA_FIELDS.flatMap (fieldValues md))).filter
        (fun v => decide (v ≠ ""))).map strLower)

/-- Python `max(group, key=...)` over `x :: l`: the first element attaining
the maximal key (`max` only replaces its best on a strictly greater key). -/
def pyMax (f : String → Nat) : String → List String → String
  | x, [] => x
  | x, y :: l => pyMax f (if f y > f x then y else x) l

/-- The candidate group formed for `keyword`:
`[keyword] + [syn for syn in synonyms if syn in keyword_freq]`. -/
def groupOf (inCorpus : String → Bool) (syns : String → List String)
    (keyword : String) : List String :=
  keyword :: (syns keyword).filter inCorpus

/-- The group's `main_keyword = max(group, key=lambda x: keyword_freq[x])`. -/
def mainOf (freq : String → Nat) (inCorpus : String → Bool)
    (syns : String → List String) (keyword : String) : String :=
  pyMax freq keyword ((syns keyword).filter inCorpus)

/-- `for syn in group: synonym_groups[syn] = main_keyword`. -/
def assignGroup :
    List (String × String) → String → List String → List (String × String)
  | d, _, [] => d
  | d, main, g :: gs => assignGroup (dictSet d g main) main gs

/-- One iteration of the `for keyword in keyword_freq` loop of
`process_keywords`. -/
def processStep (freq : String → Nat) (inCorpus : String → Bool)
    (syns : String → List String) (d : List (String × String))
    (keyword : String) : List (String × String) :=
  if hasKey d keyword then d
  else assignGroup d (mainOf freq inCorpus syns keyword)
    (groupOf inCorpus syns keyword)

/-- The whole `for keyword in keyword_freq` loop, folded over the key list. -/
def buildGroups (freq : String → Nat) (inCorpus : String → Bool)
    (syns : String → List String) :
    List String → List (String × String) → List (String × String)
  | [], d => d
  | kw :: rest, d =>
    buildGroups freq inCorpus syns rest (processStep freq inCorpus syns d kw)

/-- Trace of the loop: the `(main_keyword, group)` pairs formed, in order
(iterations skipped by the `if keyword not in synonym_groups` guard form
nothing). -/
def groupsFormed (freq : String → Nat) (inCorpus : String → Bool)
    (syns : String → List String) :
    List String → List (String × String) → List (String × List String)
  | [], _ => []
  | kw :: rest, d =>
    if hasKey d kw then
      groupsFormed freq inCorpus syns rest (processStep freq inCorpus syns d kw)
    else
      (mainOf freq inCorpus syns kw, groupOf inCorpus syns kw) ::
        groupsFormed freq inCorpus syns rest (processStep freq inCorpus syns d kw)

/-- Instrumentation of the loop: `true` iff no iteration's group contains a
keyword that is already a key of `synonym_groups` (so the run never
overwrites an existing assignment). -/
def freshGroups (freq : String → Nat) (inCorpus : String → Bool)
    (syns : String → List String) :
    List String → List (String × String) → Bool
  | [], _ => true
  | kw :: rest, d =>
    (if hasKey d kw then true
     else (groupOf inCorpus syns kw).all (fun g => !(hasKey d g)))
      && freshGroups freq inCorpus syns rest (processStep freq inCorpus syns d kw)

/-- `[handle_plurals(keyword.lower()) for keyword in all_keywords]`: the list
whose `Counter` is `keyword_freq`. -/
def singulars (sn : String → Option String) (all_keywords : List String) :
    List String :=
  all_keywords.map (fun keyword => handle_plurals sn (strLower keyword))

/-- `process_keywords` from `key-dedupe.py`.  The first component is the
`Counter` `keyword_freq`, represented by the underlying list of singularized
keywords (keys `firstOccs`, counts `countOcc`); the second is the
`synonym_groups` dict. -/
def process_keywords (sn : String → Option String)
    (lemmas : String → List String) (all_keywords : List String) :
    List String × List (String × String) :=
  let sk := singulars sn all_keywords
  (sk,
    buildGroups (countOcc sk) (fun q => decide (q ∈ sk)) (get_synonyms lemmas)
      (firstOccs sk) [])

/-- The groups formed during `process_keywords` on these inputs. -/
def pkGroups (sn : String → Option String) (lemmas : String → List String)
    (all_keywords : List String) : List (String × List String) :=
  let sk := singulars sn all_keywords
  groupsFormed (countOcc sk) (fun q => decide (q ∈ sk)) (get_synonyms lemmas)
    (firstOccs sk) []

/-- Whether the `process_keywords` run on these inputs never overwrites an
already-made assignment. -/
def pkFresh (sn : String → Option String) (lemmas : String → List String)
    (all_keywords : List String) : Bool :=
  let sk := singulars sn all_keywords
  freshGroups (countOcc sk) (fun q => decide (q ∈ sk)) (get_synonyms lemmas)
    (firstOccs sk) []

/-- `update_image_keywords` from `key-dedupe.py`: the set of
`synonym_groups[handle_plurals(keyword.lower())]` (falling back to the
singular itself when it is not a key) over the file's keywords. -/
def update_image_keywords (sn : String → Option String)
    (keywords : List String) (synonym_groups : List (String × String)) :
    List String :=
  firstOccs (keywords.map (fun keyword =>
    match lookup? synonym_groups (handle_plurals sn (strLower keyword)) with
    | some canonical => canonical
    | none => handle_plurals sn (strLower keyword)))

/-- The console line `f"Error processing {file_path}: {str(e)}"`. -/
def errorLine (p msg : String) : String :=
  "Error processing " ++ p ++ ": " ++ msg

/-- State of the collection loop in `process_directory`: the dict
`file_keywords`, the list `all_keywords`, and the error lines printed. -/
structure CollectState where
  file_keywords : List (String × List String)
  all_keywords : List String
  errLines : List String

/-- One iteration of the collection loop: extract this file's keywords and
record them, or catch the exception and print an error line. -/
def collectStep (et : String → Except String Metadata) (st : CollectState)
    (p : String) : CollectState :=
  match et p with
  | .ok md =>
    let ks := extract_keywords md
    { st with
        file_keywords := dictSet st.file_keywords p ks
        all_keywords := st.all_keywords ++ ks }
  | .error msg => { st with errLines := st.errLines ++ [errorLine p msg] }

/-- The collection loop over the walked file paths. -/
def collectFrom (et : String → Except String Metadata) (st : CollectState) :
    List String → CollectState
  | [] => st
  | p :: rest => collectFrom et (collectStep et st p) rest

/-- The collection phase of `process_directory`, from the empty state. -/
def collect (et : String → Except String Metadata) (paths : List String) :
    CollectState :=
  collectFrom et ⟨[], [], []⟩ paths

/-- `process_directory` from `key-dedupe.py`: collect, normalize, and keep
exactly the files whose keyword set changed (`updated_keywords != keywords`). -/
def process_directory (sn : String → Option String)
    (lemmas : String → List String) (et : String → Except String Metadata)
    (paths : List String) : List (String × List String) :=
  let st := collect et paths
  let sg := (process_keywords sn lemmas st.all_keywords).2
  st.file_keywords.filterMap (fun pk =>
    let upd := update_image_keywords sn pk.2 sg
    if setEq upd pk.2 then none else some (pk.1, upd))

/-- The `metadata` dict built in `update_metadata` for one file:
`keyword_list = list(set(keywords))` under `MWG:Keywords`, the other three
tracked fields cleared. -/
def writeTags (keywords : List String) : List (String × List String) :=
  [("XMP:Subject", []), ("IPTC:Keywords", []),
   ("MWG:Keywords", firstOccs keywords), ("Keywords", [])]

/-- `update_metadata` from `key-dedupe.py`, as the list of write requests it
attempts (`et.set_tags` is attempted for every entry; a failure is caught and
printed without affecting the other attempts). -/
def update_metadata (file_keywords : List (String × List String)) :
    List (String × List (String × List String)) :=
  file_keywords.map (fun pk => (pk.1, writeTags pk.2))

/-! ### Concrete inputs used by counterexamples and witnesses -/

/-- A morphology service that recognizes no plurals. -/
def exSnNone : String → Option String := fun _ => none

/-- A morphology service reporting an empty singular form for every word. -/
def exSnEmpty : String → Option String := fun _ => some ""

/-- WordNet stub: `a` and `c` each have the single synonym `m`. -/
def exLemAC : String → List String :=
  fun w => if w = "a" then ["m"] else if w = "c" then ["m"] else []

/-- WordNet stub: `a` has the single synonym `m`. -/
def exLemA : String → List String := fun w => if w = "a" then ["m"] else []

/-- WordNet stub: `c` has the single synonym `k`. -/
def exLemC : String → List String := fun w => if w = "c" then ["k"] else []

/-- WordNet stub with no synonyms at all. -/
def exLemNone : String → List String := fun _ => []

/-- Corpus with frequencies a:1, m:2, c:3, encountered in that order. -/
def exAks6 : List String := ["a", "m", "c", "m", "c", "c"]

/-- Corpus with frequencies a:1, m:2, encountered in that order. -/
def exAks3 : List String := ["a", "m", "m"]

/-- Corpus with frequencies k:1, c:2, encountered in that order. -/
def exAksKC : List String := ["k", "c", "c"]

/-- Metadata service for a five-file batch in which exactly `f3` raises. -/
def exEt5 : String → Except String Metadata :=
  fun p => if p = "f3" then .error "boom" else .ok (fun _ => none)

/-! ### Library of facts about the embedded operations -/

theorem lookup_dictSet {β : Type} (d : List (String × β)) (k q : String)
    (v : β) :
    lookup? (dictSet d k v) q = if q = k then some v else lookup? d q := by
  induction d with
  | nil =>
    by_cases h : k = q
    · subst h
      simp [dictSet, lookup?]
    · have h' : ¬ q = k := fun hh => h hh.symm
      simp [dictSet, lookup?, h, h']
  | cons p rest ih =>
    obtain ⟨k', v'⟩ := p
    by_cases hk : k' = k
    · subst hk
      by_cases hq : k' = q
      · subst hq
        simp [dictSet, lookup?]
      · have hq' : ¬ q = k' := fun hh => hq hh.symm
        simp [dictSet, lookup?, hq, hq']
    · by_cases hq : k' = q
      · subst hq
        simp [dictSet, lookup?, hk]
      · simp [dictSet, lookup?, hk, hq, ih]

theorem mem_dictSet {β : Type} (d : List (String × β)) (k q : String)
    (v w : β) (h : (q, w) ∈ dictSet d k v) :
    (q, w) ∈ d ∨ (q = k ∧ w = v) := by
  induction d with
  | nil =>
    simp only [dictSet, List.mem_singleton, Prod.mk.injEq] at h
    exact Or.inr h
  | cons p rest ih =>
    obtain ⟨k', v'⟩ := p
    by_cases hk : k' = k
    · subst hk
      rw [dictSet, if_pos rfl] at h
      rcases List.mem_cons.1 h with h' | h'
      · simp only [Prod.mk.injEq] at h'
        exact Or.inr h'
      · exact Or.inl (List.mem_cons_of_mem _ h')
    · rw [dictSet, if_neg hk] at h
      rcases List.mem_cons.1 h with h' | h'
      · exact Or.inl (List.mem_cons.2 (Or.inl h'))
      · rcases ih h' with h'' | h''
        · exact Or.inl (List.mem_cons_of_mem _ h'')
        · exact Or.inr h''

theorem pyMax_mem (f : String → Nat) :
    ∀ (l : List String) (x : String), pyMax f x l ∈ x :: l
  | [], x => by simp [pyMax]
  | y :: ys, x => by
    by_cases hc : f y > f x
    · have h := pyMax_mem f ys y
      rw [pyMax, if_pos hc]
      exact List.mem_cons_of_mem x h
    · have h := pyMax_mem f ys x
      rw [pyMax, if_neg hc]
      rcases List.mem_cons.1 h with h' | h'
      · exact List.mem_cons.2 (Or.inl h')
      · exact List.mem_cons.2 (Or.inr (List.mem_cons_of_mem y h'))

theorem le_pyMax (f : String → Nat) :
    ∀ (l : List String) (x z : String), z ∈ x :: l → f z ≤ f (pyMax f x l)
  | [], x, z, hz => by
    have : z = x := by simpa using hz
    simp [pyMax, this]
  | y :: ys, x, z, hz => by
    rw [pyMax]
    rcases List.mem_cons.1 hz with h | h
    · subst h
      have h1 : f z ≤ f (if f y > f z then y else z) := by
        by_cases hc : f y > f z
        · simp only [if_pos hc]
          omega
        · simp only [if_neg hc]
          omega
      have h2 := le_pyMax f ys (if f y > f z then y else z)
        (if f y > f z then y else z) (List.mem_cons_self _ _)
      omega
    · rcases List.mem_cons.1 h with h' | h'
      · subst h'
        have h1 : f z ≤ f (if f z > f x then z else x) := by
          by_cases hc : f z > f x
          · simp only [if_pos hc]
            omega
          · simp only [if_neg hc]
            omega
        have h2 := le_pyMax f ys (if f z > f x then z else x)
          (if f z > f x then z else x) (List.mem_cons_self _ _)
        omega
      · exact le_pyMax f ys (if f y > f x then y else x) z
          (List.mem_cons_of_mem _ h')

theorem find_cons_true (p : String → Bool) (a : String) (l : List String)
    (h : p a = true) : (a :: l).find? p = some a := by
  simp [List.find?_cons, h]

theorem find_cons_false (p : String → Bool) (a : String) (l : List String)
    (h : p a = false) : (a :: l).find? p = l.find? p := by
  simp [List.find?_cons, h]

theorem find?_pyMax (f : String → Nat) :
    ∀ (l : List String) (x : String),
      (x :: l).find? (fun z => decide (f (pyMax f x l) ≤ f z)) =
        some (pyMax f x l)
  | [], x => by simp [pyMax]
  | y :: ys, x => by
    by_cases hc : f y > f x
    · have hM : pyMax f x (y :: ys) = pyMax f y ys := by rw [pyMax, if_pos hc]
      have hy : f y ≤ f (pyMax f y ys) :=
        le_pyMax f ys y y (List.mem_cons_self _ _)
      have hx : ¬ (f (pyMax f y ys) ≤ f x) := by omega
      rw [hM, find_cons_false (fun z => decide (f (pyMax f y ys) ≤ f z)) x
        (y :: ys) (decide_eq_false hx)]
      exact find?_pyMax f ys y
    · have hM : pyMax f x (y :: ys) = pyMax f x ys := by rw [pyMax, if_neg hc]
      rw [hM]
      have ih := find?_pyMax f ys x
      by_cases hMx : f (pyMax f x ys) ≤ f x
      · have h1 : (x :: ys).find?
            (fun z => decide (f (pyMax f x ys) ≤ f z)) = some x :=
          find_cons_true _ _ _ (decide_eq_true hMx)
        have hxM : some x = some (pyMax f x ys) := h1 ▸ ih
        rw [find_cons_true (fun z => decide (f (pyMax f x ys) ≤ f z)) x
          (y :: ys) (decide_eq_true hMx)]
        exact hxM
      · have hyx : f y ≤ f x := by omega
        have hyM : ¬ (f (pyMax f x ys) ≤ f y) := by omega
        rw [find_cons_false (fun z => decide (f (pyMax f x ys) ≤ f z)) x ys
          (decide_eq_false hMx)] at ih
        rw [find_cons_false (fun z => decide (f (pyMax f x ys) ≤ f z)) x
          (y :: ys) (decide_eq_false hMx),
          find_cons_false (fun z => decide (f (pyMax f x ys) ≤ f z)) y ys
          (decide_eq_false hyM)]
        exact ih

theorem lookup_assignGroup :
    ∀ (g : List String) (d : List (String × String)) (main q : String),
      lookup? (assignGroup d main g) q =
        if q ∈ g then some main else lookup? d q
  | [], d, main, q => by simp [assignGroup]
  | x :: gs, d, main, q => by
    rw [assignGroup, lookup_assignGroup gs (dictSet d x main) main q]
    by_cases hq : q ∈ gs
    · simp [hq, List.mem_cons]
    · by_cases hx : q = x
      · subst hx
        simp [hq, lookup_dictSet]
      · simp [hq, hx, lookup_dictSet, List.mem_cons]

theorem mainOf_mem (freq : String → Nat) (inCorpus : String → Bool)
    (syns : String → List String) (kw : String) :
    mainOf freq inCorpus syns kw ∈ groupOf inCorpus syns kw :=
  pyMax_mem freq _ kw

theorem processStep_skip (freq : String → Nat) (inCorpus : String → Bool)
    (syns : String → List String) (d : List (String × String)) (kw : String)
    (hk : hasKey d kw = true) : processStep freq inCorpus syns d kw = d := by
  simp [processStep, hk]

theorem processStep_form (freq : String → Nat) (inCorpus : String → Bool)
    (syns : String → List String) (d : List (String × String)) (kw : String)
    (hk : ¬ hasKey d kw = true) :
    processStep freq inCorpus syns d kw =
      assignGroup d (mainOf freq inCorpus syns kw) (groupOf inCorpus syns kw) := by
  simp [processStep, hk]

theorem hasKey_processStep_self (freq : String → Nat)
    (inCorpus : String → Bool) (syns : String → List String)
    (d : List (String × String)) (kw : String) :
    hasKey (processStep freq inCorpus syns d kw) kw = true := by
  by_cases hk : hasKey d kw = true
  · rw [processStep_skip freq inCorpus syns d kw hk]
    exact hk
  · have hmem : kw ∈ groupOf inCorpus syns kw := List.mem_cons_self kw _
    rw [hasKey, processStep_form freq inCorpus syns d kw hk,
      lookup_assignGroup, if_pos hmem]
    rfl

theorem hasKey_processStep_mono (freq : String → Nat)
    (inCorpus : String → Bool) (syns : String → List String)
    (d : List (String × String)) (kw q : String)
    (h : hasKey d q = true) :
    hasKey (processStep freq inCorpus syns d kw) q = true := by
  by_cases hk : hasKey d kw = true
  · rw [processStep_skip freq inCorpus syns d kw hk]
    exact h
  · rw [hasKey, processStep_form freq inCorpus syns d kw hk,
      lookup_assignGroup]
    by_cases hg : q ∈ groupOf inCorpus syns kw
    · rw [if_pos hg]
      rfl
    · rw [if_neg hg]
      exact h

/-- In the final dict, a keyword's value is the main of the LAST formed group
containing it (later assignments overwrite earlier ones). -/
def lastAssigned (q : String) : List (String × List String) → Option String
  | [] => none
  | (m, g) :: rest =>
    match lastAssigned q rest with
    | some m' => some m'
    | none => if q ∈ g then some m else none

theorem lookup_buildGroups (freq : String → Nat) (inCorpus : String → Bool)
    (syns : String → List String) :
    ∀ (l : List String) (d : List (String × String)) (q : String),
      lookup? (buildGroups freq inCorpus syns l d) q =
        match lastAssigned q (groupsFormed freq inCorpus syns l d) with
        | some m => some m
        | none => lookup? d q
  | [], d, q => by simp [buildGroups, groupsFormed, lastAssigned]
  | kw :: rest, d, q => by
    by_cases hk : hasKey d kw = true
    · rw [buildGroups, groupsFormed, if_pos hk,
        processStep_skip freq inCorpus syns d kw hk]
      exact lookup_buildGroups freq inCorpus syns rest d q
    · rw [buildGroups, groupsFormed, if_neg hk,
        lookup_buildGroups freq inCorpus syns rest _ q, lastAssigned]
      cases hLA : lastAssigned q
          (groupsFormed freq inCorpus syns rest
            (processStep freq inCorpus syns d kw)) with
      | some m' => simp
      | none =>
        simp only
        rw [processStep_form freq inCorpus syns d kw hk, lookup_assignGroup]
        by_cases hg : q ∈ groupOf inCorpus syns kw
        · rw [if_pos hg, if_pos hg]
        · rw [if_neg hg, if_neg hg]

theorem lastAssigned_mem (q : String) :
    ∀ (G : List (String × List String)) (m : String),
      lastAssigned q G = some m → ∃ g, (m, g) ∈ G ∧ q ∈ g
  | [], m, h => by simp [lastAssigned] at h
  | (m0, g0) :: rest, m, h => by
    rw [lastAssigned] at h
    cases hLA : lastAssigned q rest with
    | some m' =>
      rw [hLA] at h
      simp only [Option.some.injEq] at h
      obtain ⟨g, hg, hq⟩ := lastAssigned_mem q rest m' hLA
      rw [← h]
      exact ⟨g, List.mem_cons_of_mem _ hg, hq⟩
    | none =>
      rw [hLA] at h
      by_cases hq : q ∈ g0
      · rw [if_pos hq] at h
        simp only [Option.some.injEq] at h
        rw [← h]
        exact ⟨g0, List.mem_cons_self _ _, hq⟩
      · rw [if_neg hq] at h
        exact absurd h (by simp)

theorem groupsFormed_shape (freq : String → Nat) (inCorpus : String → Bool)
    (syns : String → List String) :
    ∀ (l : List String) (d : List (String × String))
      (mg : String × List String),
      mg ∈ groupsFormed freq inCorpus syns l d →
      ∃ kw, mg = (mainOf freq inCorpus syns kw, groupOf inCorpus syns kw)
  | [], d, mg, h => by simp [groupsFormed] at h
  | kw :: rest, d, mg, h => by
    by_cases hk : hasKey d kw = true
    · rw [groupsFormed, if_pos hk] at h
      exact groupsFormed_shape freq inCorpus syns rest _ mg h
    · rw [groupsFormed, if_neg hk] at h
      rcases List.mem_cons.1 h with h' | h'
      · exact ⟨kw, h'⟩
      · exact groupsFormed_shape freq inCorpus syns rest _ mg h'

theorem hasKey_buildGroups_mono (freq : String → Nat)
    (inCorpus : String → Bool) (syns : String → List String) :
    ∀ (l : List String) (d : List (String × String)) (q : String),
      hasKey d q = true → hasKey (buildGroups freq inCorpus syns l d) q = true
  | [], _, _, h => h
  | kw :: rest, d, q, h => by
    rw [buildGroups]
    exact hasKey_buildGroups_mono freq inCorpus syns rest _ q
      (hasKey_processStep_mono freq inCorpus syns d kw q h)

theorem buildGroups_total (freq : String → Nat) (inCorpus : String → Bool)
    (syns : String → List String) :
    ∀ (l : List String) (d : List (String × String)) (q : String),
      q ∈ l → hasKey (buildGroups freq inCorpus syns l d) q = true
  | [], _, _, h => by simp at h
  | kw :: rest, d, q, h => by
    rw [buildGroups]
    rcases List.mem_cons.1 h with h' | h'
    · subst h'
      exact hasKey_buildGroups_mono freq inCorpus syns rest _ q
        (hasKey_processStep_self freq inCorpus syns d q)
    · exact buildGroups_total freq inCorpus syns rest _ q h'

theorem fresh_tail (freq : String → Nat) (inCorpus : String → Bool)
    (syns : String → List String) (kw : String) (rest : List String)
    (d : List (String × String))
    (h : freshGroups freq inCorpus syns (kw :: rest) d = true) :
    freshGroups freq inCorpus syns rest
      (processStep freq inCorpus syns d kw) = true := by
  rw [freshGroups, Bool.and_eq_true] at h
  exact h.2

theorem fresh_head (freq : String → Nat) (inCorpus : String → Bool)
    (syns : String → List String) (kw : String) (rest : List String)
    (d : List (String × String))
    (h : freshGroups freq inCorpus syns (kw :: rest) d = true)
    (hk : ¬ hasKey d kw = true) :
    (groupOf inCorpus syns kw).all (fun g => !(hasKey d g)) = true := by
  rw [freshGroups, Bool.and_eq_true] at h
  have h1 := h.1
  rwa [if_neg hk] at h1

theorem fresh_preserves (freq : String → Nat) (inCorpus : String → Bool)
    (syns : String → List String) :
    ∀ (l : List String) (d : List (String × String)) (q : String),
      freshGroups freq inCorpus syns l d = true → hasKey d q = true →
      lookup? (buildGroups freq inCorpus syns l d) q = lookup? d q
  | [], d, q, _, _ => by simp [buildGroups]
  | kw :: rest, d, q, hf, hq => by
    rw [buildGroups]
    by_cases hk : hasKey d kw = true
    · have hps := processStep_skip freq inCorpus syns d kw hk
      have hft := fresh_tail freq inCorpus syns kw rest d hf
      rw [hps] at hft ⊢
      exact fresh_preserves freq inCorpus syns rest d q hft hq
    · have hall := fresh_head freq inCorpus syns kw rest d hf hk
      have hqg : q ∉ groupOf inCorpus syns kw := by
        intro hmem
        have hbad := List.all_eq_true.1 hall q hmem
        rw [hq] at hbad
        simp at hbad
      have hlk : lookup? (processStep freq inCorpus syns d kw) q =
          lookup? d q := by
        rw [processStep_form freq inCorpus syns d kw hk, lookup_assignGroup,
          if_neg hqg]
      have hq' : hasKey (processStep freq inCorpus syns d kw) q = true := by
        rw [hasKey, hlk]
        exact hq
      rw [fresh_preserves freq inCorpus syns rest _ q
        (fresh_tail freq inCorpus syns kw rest d hf) hq']
      exact hlk

theorem fresh_groups_lookup (freq : String → Nat) (inCorpus : String → Bool)
    (syns : String → List String) :
    ∀ (l : List String) (d : List (String × String))
      (mg : String × List String) (x : String),
      freshGroups freq inCorpus syns l d = true →
      mg ∈ groupsFormed freq inCorpus syns l d → x ∈ mg.2 →
      lookup? (buildGroups freq inCorpus syns l d) x = some mg.1
  | [], d, mg, x, _, hmg, _ => by simp [groupsFormed] at hmg
  | kw :: rest, d, mg, x, hf, hmg, hx => by
    rw [buildGroups]
    by_cases hk : hasKey d kw = true
    · rw [groupsFormed, if_pos hk] at hmg
      exact fresh_groups_lookup freq inCorpus syns rest _ mg x
        (fresh_tail freq inCorpus syns kw rest d hf) hmg hx
    · rw [groupsFormed, if_neg hk] at hmg
      rcases List.mem_cons.1 hmg with h' | h'
      · have hx' : x ∈ groupOf inCorpus syns kw := by
          rw [h'] at hx
          exact hx
        have hlk : lookup? (processStep freq inCorpus syns d kw) x =
            some (mainOf freq inCorpus syns kw) := by
          rw [processStep_form freq inCorpus syns d kw hk, lookup_assignGroup,
            if_pos hx']
        have hkx : hasKey (processStep freq inCorpus syns d kw) x = true := by
          rw [hasKey, hlk]
          rfl
        rw [fresh_preserves freq inCorpus syns rest _ x
          (fresh_tail freq inCorpus syns kw rest d hf) hkx, hlk, h']
      · exact fresh_groups_lookup freq inCorpus syns rest _ mg x
          (fresh_tail freq inCorpus syns kw rest d hf) h' hx

theorem mem_firstOccsAux :
    ∀ (l seen : List String) (q : String),
      q ∈ firstOccsAux seen l ↔ q ∈ l ∧ q ∉ seen
  | [], seen, q => by simp [firstOccsAux]
  | x :: xs, seen, q => by
    rw [firstOccsAux]
    by_cases hx : x ∈ seen
    · rw [if_pos hx, mem_firstOccsAux xs seen q]
      constructor
      · rintro ⟨h1, h2⟩
        exact ⟨List.mem_cons_of_mem _ h1, h2⟩
      · rintro ⟨h1, h2⟩
        rcases List.mem_cons.1 h1 with h' | h'
        · subst h'
          exact absurd hx h2
        · exact ⟨h', h2⟩
    · rw [if_neg hx]
      constructor
      · intro h
        rcases List.mem_cons.1 h with h' | h'
        · subst h'
          exact ⟨List.mem_cons_self _ _, hx⟩
        · have h2 := (mem_firstOccsAux xs (x :: seen) q).1 h'
          exact ⟨List.mem_cons_of_mem _ h2.1,
            fun hs => h2.2 (List.mem_cons_of_mem _ hs)⟩
      · rintro ⟨h1, h2⟩
        rcases List.mem_cons.1 h1 with h' | h'
        · subst h'
          exact List.mem_cons_self _ _
        · by_cases hqx : q = x
          · subst hqx
            exact List.mem_cons_self _ _
          · refine List.mem_cons_of_mem _
              ((mem_firstOccsAux xs (x :: seen) q).2 ⟨h', fun hs => ?_⟩)
            rcases List.mem_cons.1 hs with h'' | h''
            · exact hqx h''
            · exact h2 h''

theorem nodup_firstOccsAux :
    ∀ (l seen : List String), (firstOccsAux seen l).Nodup
  | [], seen => by simp [firstOccsAux]
  | x :: xs, seen => by
    rw [firstOccsAux]
    by_cases hx : x ∈ seen
    · rw [if_pos hx]
      exact nodup_firstOccsAux xs seen
    · rw [if_neg hx, List.nodup_cons]
      refine ⟨fun hmem => ?_, nodup_firstOccsAux xs (x :: seen)⟩
      exact ((mem_firstOccsAux xs (x :: seen) x).1 hmem).2
        (List.mem_cons_self _ _)

theorem mem_firstOccs (l : List String) (q : String) :
    q ∈ firstOccs l ↔ q ∈ l := by
  rw [firstOccs, mem_firstOccsAux]
  simp

theorem nodup_firstOccs (l : List String) : (firstOccs l).Nodup :=
  nodup_firstOccsAux l []

theorem firstOccs_toFinset (l : List String) :
    (firstOccs l).toFinset = l.toFinset := by
  ext x
  simp [List.mem_toFinset, mem_firstOccs]

theorem firstOccsAux_eq_self :
    ∀ (l seen : List String), l.Nodup → (∀ x ∈ l, x ∉ seen) →
      firstOccsAux seen l = l
  | [], _, _, _ => rfl
  | x :: xs, seen, hnd, hdisj => by
    rw [firstOccsAux, if_neg (hdisj x (List.mem_cons_self _ _))]
    congr 1
    refine firstOccsAux_eq_self xs (x :: seen) (List.nodup_cons.1 hnd).2 ?_
    intro y hy hmem
    rcases List.mem_cons.1 hmem with h' | h'
    · subst h'
      exact (List.nodup_cons.1 hnd).1 hy
    · exact hdisj y (List.mem_cons_of_mem _ hy) h'

theorem firstOccs_eq_self (l : List String) (h : l.Nodup) : firstOccs l = l :=
  firstOccsAux_eq_self l [] h (by simp)

theorem toFinset_map_list (l : List String) (f : String → String) :
    (l.map f).toFinset = l.toFinset.image f := by
  ext x
  simp [List.mem_toFinset, List.mem_map, Finset.mem_image]

theorem setEq_iff (a b : List String) :
    setEq a b = true ↔ a.toFinset = b.toFinset := by
  rw [setEq, Bool.and_eq_true, List.all_eq_true, List.all_eq_true]
  constructor
  · rintro ⟨h1, h2⟩
    ext x
    simp only [List.mem_toFinset]
    constructor
    · intro hx
      simpa using h1 x hx
    · intro hx
      simpa using h2 x hx
  · intro h
    constructor <;> intro x hx <;> simp only [decide_eq_true_eq]
    · have hx' := List.mem_toFinset.2 hx
      rw [h] at hx'
      exact List.mem_toFinset.1 hx'
    · have hx' := List.mem_toFinset.2 hx
      rw [← h] at hx'
      exact List.mem_toFinset.1 hx'

theorem collectFrom_append (et : String → Except String Metadata) :
    ∀ (xs ys : List String) (st : CollectState),
      collectFrom et st (xs ++ ys) = collectFrom et (collectFrom et st xs) ys
  | [], ys, st => rfl
  | p :: xs, ys, st => by
    rw [List.cons_append, collectFrom, collectFrom]
    exact collectFrom_append et xs ys (collectStep et st p)

theorem collectFrom_split (et : String → Except String Metadata) :
    ∀ (l : List String) (fk : List (String × List String))
      (ak e : List String),
      collectFrom et ⟨fk, ak, e⟩ l =
        ⟨(collectFrom et ⟨fk, ak, []⟩ l).file_keywords,
         (collectFrom et ⟨fk, ak, []⟩ l).all_keywords,
         e ++ (collectFrom et ⟨fk, ak, []⟩ l).errLines⟩
  | [], fk, ak, e => by simp [collectFrom]
  | p :: rest, fk, ak, e => by
    rw [collectFrom, collectFrom]
    cases het : et p with
    | ok md =>
      simp only [collectStep, het]
      exact collectFrom_split et rest (dictSet fk p (extract_keywords md))
        (ak ++ extract_keywords md) e
    | error msg =>
      simp only [collectStep, het]
      rw [collectFrom_split et rest fk ak ([] ++ [errorLine p msg]),
        collectFrom_split et rest fk ak (e ++ [errorLine p msg])]
      simp

theorem collect_mem_ok (et : String → Except String Metadata) :
    ∀ (l : List String) (st : CollectState) (q : String) (ks : List String),
      (q, ks) ∈ (collectFrom et st l).file_keywords →
      (q, ks) ∈ st.file_keywords ∨
        ∃ md, et q = .ok md ∧ ks = extract_keywords md
  | [], _, _, _, h => Or.inl h
  | p :: rest, st, q, ks, h => by
    rw [collectFrom] at h
    rcases collect_mem_ok et rest (collectStep et st p) q ks h with h' | h'
    · cases het : et p with
      | ok md =>
        simp only [collectStep, het] at h'
        rcases mem_dictSet _ _ _ _ _ h' with h'' | h''
        · exact Or.inl h''
        · refine Or.inr ⟨md, ?_, h''.2⟩
          rw [h''.1]
          exact het
      | error msg =>
        simp only [collectStep, het] at h'
        exact Or.inl h'
    · exact Or.inr h'

theorem process_keywords_fst (sn : String → Option String)
    (lemmas : String → List String) (all_keywords : List String) :
    (process_keywords sn lemmas all_keywords).1 = singulars sn all_keywords :=
  rfl

theorem process_keywords_snd (sn : String → Option String)
    (lemmas : String → List String) (all_keywords : List String) :
    (process_keywords sn lemmas all_keywords).2 =
      buildGroups (countOcc (singulars sn all_keywords))
        (fun q => decide (q ∈ singulars sn all_keywords))
        (get_synonyms lemmas) (firstOccs (singulars sn all_keywords)) [] :=
  rfl

theorem pkGroups_eq (sn : String → Option String)
    (lemmas : String → List String) (all_keywords : List String) :
    pkGroups sn lemmas all_keywords =
      groupsFormed (countOcc (singulars sn all_keywords))
        (fun q => decide (q ∈ singulars sn all_keywords))
        (get_synonyms lemmas) (firstOccs (singulars sn all_keywords)) [] :=
  rfl

theorem pkFresh_eq (sn : String → Option String)
    (lemmas : String → List String) (all_keywords : List String) :
    pkFresh sn lemmas all_keywords =
      freshGroups (countOcc (singulars sn all_keywords))
        (fun q => decide (q ∈ singulars sn all_keywords))
        (get_synonyms lemmas) (firstOccs (singulars sn all_keywords)) [] :=
  rfl

theorem process_directory_eq (sn : String → Option String)
    (lemmas : String → List String) (et : String → Except String Metadata)
    (paths : List String) :
    process_directory sn lemmas et paths =
      (collect et paths).file_keywords.filterMap (fun pk =>
        if setEq (update_image_keywords sn pk.2
            (process_keywords sn lemmas
              (collect et paths).all_keywords).2) pk.2
        then none
        else some (pk.1, update_image_keywords sn pk.2
          (process_keywords sn lemmas (collect et paths).all_keywords).2)) :=
  rfl

/-! ### Claim theorems -/

/-- Claim C5, counterexample: the claim says `handle_plurals(w)` returns the
singular form whenever the morphology service identifies `w` as a plural noun.
With a service whose reported singular form is the empty string (a string
result, not the `False`/`none` marker for non-plurals), Python truthiness
makes `handle_plurals` return the original word instead of the reported
singular form: here the service identifies "dogs" as plural with singular
form `""`, but `handle_plurals` returns "dogs" ≠ `""`. -/
theorem c5_counterexample :
    exSnEmpty "dogs" = some "" ∧
      handle_plurals exSnEmpty "dogs" = "dogs" ∧ ("dogs" : String) ≠ "" := by
  refine ⟨rfl, rfl, ?_⟩
  decide

/-- Claim C5, amended: for every word `w` that the morphology service
identifies as a plural noun with a NONEMPTY singular form, `handle_plurals w`
returns that singular form; for every other word — not identified as plural,
or identified as plural with the empty string as reported singular form —
`handle_plurals w` returns `w` unchanged. -/
theorem c5_theorem (sn : String → Option String) (w s : String) :
    (sn w = some s → s ≠ "" → handle_plurals sn w = s) ∧
      (sn w = none → handle_plurals sn w = w) ∧
      (sn w = some "" → handle_plurals sn w = w) := by
  refine ⟨?_, ?_, ?_⟩
  · intro h hs
    simp only [handle_plurals, h]
    simp [hs]
  · intro h
    simp only [handle_plurals, h]
  · intro h
    simp only [handle_plurals, h]
    simp

/-- Witness for C5's amended theorem at concrete services. -/
theorem c5_witness :
    handle_plurals (fun _ => some "dog") "dogs" = "dog" ∧
      handle_plurals exSnNone "dogs" = "dogs" :=
  ⟨(c5_theorem (fun _ => some "dog") "dogs" "dog").1 rfl (by decide),
   (c5_theorem exSnNone "dogs" "dog").2.1 rfl⟩

/-- Claim C10: for every keyword set and every canonical mapping, per-file
canonicalization (`update_image_keywords`) yields a set of cardinality at
most that of the input set — it can merge keywords but never introduces more
distinct keywords than the file had. -/
theorem c10_theorem (sn : String → Option String) (keywords : List String)
    (synonym_groups : List (String × String)) :
    (update_image_keywords sn keywords synonym_groups).toFinset.card ≤
      keywords.toFinset.card := by
  rw [update_image_keywords, firstOccs_toFinset, toFinset_map_list]
  exact Finset.card_image_le

/-- Claim C6: `extract_keywords` returns exactly the set obtained by merging,
over the fixed field list `METADATA_FIELDS`, all elements of list-valued
fields and scalar values as single elements, discarding empty values, and
lowercasing every resulting keyword. -/
theorem c6_theorem (md : Metadata) (k : String) :
    k ∈ extract_keywords md ↔
      ∃ field ∈ METADATA_FIELDS, ∃ v ∈ fieldValues md field,
        v ≠ "" ∧ k = strLower v := by
  rw [extract_keywords, mem_firstOccs]
  simp only [List.mem_map, List.mem_filter, mem_firstOccs, List.mem_flatMap,
    decide_eq_true_eq]
  constructor
  · rintro ⟨v, ⟨⟨f, hf, hv⟩, hne⟩, rfl⟩
    exact ⟨f, hf, v, hv, hne, rfl⟩
  · rintro ⟨f, hf, v, hv, hne, rfl⟩
    exact ⟨v, ⟨⟨f, hf, hv⟩, hne⟩, rfl⟩

/-- Claim C7: every write request attempted by `update_metadata` sets exactly
the canonical field `MWG:Keywords` to the file's full deduplicated keyword
list and explicitly sets the other three tracked fields to empty lists. -/
theorem c7_theorem (file_keywords : List (String × List String))
    (p : String) (tags : List (String × List String))
    (h : (p, tags) ∈ update_metadata file_keywords) :
    ∃ ks, (p, ks) ∈ file_keywords ∧ tags = writeTags ks ∧
      lookup? tags "MWG:Keywords" = some (firstOccs ks) ∧
      lookup? tags "XMP:Subject" = some [] ∧
      lookup? tags "IPTC:Keywords" = some [] ∧
      lookup? tags "Keywords" = some [] ∧
      (firstOccs ks).toFinset = ks.toFinset := by
  rw [update_metadata] at h
  rcases List.mem_map.1 h with ⟨⟨q, ks⟩, hmem, heq⟩
  simp only [Prod.mk.injEq] at heq
  refine ⟨ks, ?_, heq.2.symm, ?_, ?_, ?_, ?_, firstOccs_toFinset ks⟩
  · rw [← heq.1]
    exact hmem
  · rw [← heq.2]
    rfl
  · rw [← heq.2]
    rfl
  · rw [← heq.2]
    rfl
  · rw [← heq.2]
    rfl

/-- Witness for C7 on a concrete one-file request list. -/
theorem c7_witness :
    ∃ ks, ("img", ks) ∈ [("img", ["b", "a"])] ∧
      writeTags ["b", "a"] = writeTags ks ∧
      lookup? (writeTags ["b", "a"]) "MWG:Keywords" = some (firstOccs ks) ∧
      lookup? (writeTags ["b", "a"]) "XMP:Subject" = some [] ∧
      lookup? (writeTags ["b", "a"]) "IPTC:Keywords" = some [] ∧
      lookup? (writeTags ["b", "a"]) "Keywords" = some [] ∧
      (firstOccs ks).toFinset = ks.toFinset :=
  c7_theorem [("img", ["b", "a"])] "img" (writeTags ["b", "a"]) (by decide)

/-- Claim C9: the canonical mapping of `process_keywords` is total over the
corpus: every key of the frequency table (every singularized corpus keyword)
is a key of `synonym_groups`, and consequently for any keyword drawn from the
collected corpus the singularized lookup performed by `update_image_keywords`
always hits a key, so its fallback identity branch is never taken. -/
theorem c9_theorem (sn : String → Option String)
    (lemmas : String → List String) (all_keywords : List String) :
    (∀ k ∈ (process_keywords sn lemmas all_keywords).1,
        hasKey (process_keywords sn lemmas all_keywords).2 k = true) ∧
      (∀ kw ∈ all_keywords,
        hasKey (process_keywords sn lemmas all_keywords).2
          (handle_plurals sn (strLower kw)) = true) := by
  constructor
  · intro k hk
    rw [process_keywords_fst] at hk
    rw [process_keywords_snd]
    exact buildGroups_total _ _ _ _ [] k ((mem_firstOccs _ _).2 hk)
  · intro kw hkw
    rw [process_keywords_snd]
    have hmem : handle_plurals sn (strLower kw) ∈ singulars sn all_keywords :=
      List.mem_map.2 ⟨kw, hkw, rfl⟩
    exact buildGroups_total _ _ _ _ [] _ ((mem_firstOccs _ _).2 hmem)

/-- Witness for C9 on a concrete corpus. -/
theorem c9_witness :
    hasKey (process_keywords exSnNone exLemNone ["whale"]).2 "whale" = true ∧
      hasKey (process_keywords exSnNone exLemNone ["whale"]).2
        (handle_plurals exSnNone (strLower "whale")) = true :=
  ⟨(c9_theorem exSnNone exLemNone ["whale"]).1 "whale" (by decide),
   (c9_theorem exSnNone exLemNone ["whale"]).2 "whale" (by decide)⟩

theorem fresh_idempotent (freq : String → Nat) (inCorpus : String → Bool)
    (syns : String → List String) (l : List String) (k v : String)
    (hf : freshGroups freq inCorpus syns l [] = true)
    (hkv : lookup? (buildGroups freq inCorpus syns l []) k = some v) :
    lookup? (buildGroups freq inCorpus syns l []) v = some v := by
  rw [lookup_buildGroups] at hkv
  cases hLA : lastAssigned k (groupsFormed freq inCorpus syns l []) with
  | none =>
    rw [hLA] at hkv
    simp [lookup?] at hkv
  | some m =>
    rw [hLA] at hkv
    simp only [Option.some.injEq] at hkv
    obtain ⟨g, hgmem, _⟩ := lastAssigned_mem k _ m hLA
    obtain ⟨kw, hshape⟩ := groupsFormed_shape freq inCorpus syns l [] (m, g)
      hgmem
    simp only [Prod.mk.injEq] at hshape
    have hmg : m ∈ g := by
      rw [hshape.1, hshape.2]
      exact mainOf_mem freq inCorpus syns kw
    have hres := fresh_groups_lookup freq inCorpus syns l [] (m, g) m hf
      hgmem hmg
    rw [← hkv]
    exact hres

/-- Claim C1, counterexample: the canonical mapping is NOT idempotent.  On
the corpus `a, m, c, m, c, c` (frequencies a:1, m:2, c:3) with WordNet stub
giving `a` and `c` the single synonym `m`, processing `a` forms the group
`[a, m]` with main `m`, but processing `c` later forms `[c, m]` with main `c`
and overwrites `m`'s assignment; the final mapping sends `a ↦ m` and
`m ↦ c`, so `synonym_groups[synonym_groups["a"]] = "c" ≠ "m" =
synonym_groups["a"]`. -/
theorem c1_counterexample :
    lookup? (process_keywords exSnNone exLemAC exAks6).2 "a" = some "m" ∧
      lookup? (process_keywords exSnNone exLemAC exAks6).2 "m" = some "c" ∧
      ("c" : String) ≠ "m" := by
  decide

/-- Claim C1, amended: the canonical mapping is idempotent PROVIDED the run
never overwrites an existing assignment, i.e. no iteration's candidate group
contains a keyword already assigned to an earlier group (`pkFresh`).  In
general a later group may capture an earlier group's member, and then a
canonical term need not map to itself. -/
theorem c1_theorem (sn : String → Option String)
    (lemmas : String → List String) (all_keywords : List String)
    (hf : pkFresh sn lemmas all_keywords = true) (k v : String)
    (hkv : lookup? (process_keywords sn lemmas all_keywords).2 k = some v) :
    lookup? (process_keywords sn lemmas all_keywords).2 v = some v := by
  rw [process_keywords_snd] at hkv ⊢
  rw [pkFresh_eq] at hf
  exact fresh_idempotent _ _ _ _ k v hf hkv

/-- Witness for C1's amended theorem: corpus `a, m, m` with `a`'s only
synonym `m`; the single group `[a, m]` has main `m` and the run is fresh, so
the canonical term `m` maps to itself. -/
theorem c1_witness :
    lookup? (process_keywords exSnNone exLemA exAks3).2 "m" = some "m" :=
  c1_theorem exSnNone exLemA exAks3 (by decide) "a" "m" (by decide)

/-- Claim C2, counterexample: it is NOT the case that every member of a
formed synonym group is mapped (by the final mapping) to the same canonical
term.  On the corpus `a, m, c, m, c, c` with `a` and `c` each having the
single synonym `m`, the group formed for `a` is `["a", "m"]` with canonical
`m`, yet in the final mapping its member `a` maps to `m` while its member
`m` maps to `c`. -/
theorem c2_counterexample :
    ("m", ["a", "m"]) ∈ pkGroups exSnNone exLemAC exAks6 ∧
      lookup? (process_keywords exSnNone exLemAC exAks6).2 "a" = some "m" ∧
      lookup? (process_keywords exSnNone exLemAC exAks6).2 "m" = some "c" ∧
      ("m" : String) ≠ "c" := by
  decide

/-- Claim C2, amended: provided the run never overwrites an assignment
(`pkFresh`), every formed group `G` satisfies the claim: its canonical term
is a member of `G`, every member of `G` is mapped to that canonical term,
the canonical term's corpus frequency is greatest in `G`, and it is the
first member of `G` attaining that maximal frequency (the tie-break). -/
theorem c2_theorem (sn : String → Option String)
    (lemmas : String → List String) (all_keywords : List String)
    (hf : pkFresh sn lemmas all_keywords = true)
    (mg : String × List String)
    (hmg : mg ∈ pkGroups sn lemmas all_keywords) :
    mg.1 ∈ mg.2 ∧
      (∀ x ∈ mg.2,
        lookup? (process_keywords sn lemmas all_keywords).2 x = some mg.1) ∧
      (∀ x ∈ mg.2,
        countOcc (singulars sn all_keywords) x ≤
          countOcc (singulars sn all_keywords) mg.1) ∧
      mg.2.find? (fun y =>
          decide (countOcc (singulars sn all_keywords) mg.1 ≤
            countOcc (singulars sn all_keywords) y)) = some mg.1 := by
  rw [pkGroups_eq] at hmg
  rw [pkFresh_eq] at hf
  obtain ⟨kw, hshape⟩ := groupsFormed_shape _ _ _ _ [] mg hmg
  refine ⟨?_, ?_, ?_, ?_⟩
  · rw [hshape]
    exact mainOf_mem _ _ _ kw
  · intro x hx
    rw [process_keywords_snd]
    exact fresh_groups_lookup _ _ _ _ [] mg x hf hmg hx
  · intro x hx
    rw [hshape] at hx ⊢
    exact le_pyMax _ _ kw x hx
  · rw [hshape]
    exact find?_pyMax _ _ kw

/-- Witness for C2's amended theorem: corpus `a, m, m` with `a`'s only
synonym `m`; the single formed group is `("m", ["a", "m"])`. -/
theorem c2_witness :
    ("m" : String) ∈ ["a", "m"] ∧
      (∀ x ∈ ["a", "m"],
        lookup? (process_keywords exSnNone exLemA exAks3).2 x = some "m") ∧
      (∀ x ∈ ["a", "m"],
        countOcc (singulars exSnNone exAks3) x ≤
          countOcc (singulars exSnNone exAks3) "m") ∧
      (["a", "m"].find? (fun y =>
          decide (countOcc (singulars exSnNone exAks3) "m" ≤
            countOcc (singulars exSnNone exAks3) y)) = some "m") :=
  c2_theorem exSnNone exLemA exAks3 (by decide) ("m", ["a", "m"]) (by decide)

/-- Claim C8, counterexample: a keyword whose synonym lookup returns no
synonyms need NOT map to itself.  On the corpus `k, c, c` where `k` has no
synonyms but `c` has the synonym `k`, the singleton group `[k]` is formed
first (mapping `k ↦ k`), but processing `c` later forms the group `[c, k]`
with main `c` and overwrites the assignment, so the final mapping sends
`k ↦ c ≠ k`. -/
theorem c8_counterexample :
    get_synonyms exLemC "k" = [] ∧
      lookup? (process_keywords exSnNone exLemC exAksKC).2 "k" = some "c" ∧
      ("c" : String) ≠ "k" := by
  decide

/-- Claim C8, amended: a corpus keyword whose synonym lookup yields no
synonyms occurring in the corpus forms a singleton group mapping to itself,
and the FINAL mapping sends it to itself PROVIDED no other keyword's
candidate group contains it (otherwise a later group can overwrite the
assignment); moreover a file all of whose keywords are such fixed singletons
(already lowercase and singular) is left unchanged by per-file
canonicalization, hence is not rewritten. -/
theorem c8_theorem (sn : String → Option String)
    (lemmas : String → List String) (all_keywords : List String) :
    (∀ k, k ∈ singulars sn all_keywords →
      (get_synonyms lemmas k).filter
        (fun q => decide (q ∈ singulars sn all_keywords)) = [] →
      (∀ mg ∈ pkGroups sn lemmas all_keywords, k ∈ mg.2 → mg.2 = [k]) →
      lookup? (process_keywords sn lemmas all_keywords).2 k = some k) ∧
    (∀ ks : List String, ks.Nodup →
      (∀ x ∈ ks, strLower x = x ∧ handle_plurals sn x = x ∧
        lookup? (process_keywords sn lemmas all_keywords).2 x = some x) →
      update_image_keywords sn ks
        (process_keywords sn lemmas all_keywords).2 = ks) := by
  constructor
  · intro k hk hsyn hsolo
    have htot : hasKey (process_keywords sn lemmas all_keywords).2 k = true := by
      rw [process_keywords_snd]
      exact buildGroups_total _ _ _ _ [] k ((mem_firstOccs _ _).2 hk)
    rw [process_keywords_snd] at htot ⊢
    rw [lookup_buildGroups]
    cases hLA : lastAssigned k
        (groupsFormed (countOcc (singulars sn all_keywords))
          (fun q => decide (q ∈ singulars sn all_keywords))
          (get_synonyms lemmas) (firstOccs (singulars sn all_keywords)) [])
        with
    | none =>
      rw [hasKey, lookup_buildGroups, hLA] at htot
      simp [lookup?] at htot
    | some m =>
      obtain ⟨g, hgmem, hkg⟩ := lastAssigned_mem k _ m hLA
      have hg1 : g = [k] := hsolo (m, g) (by rw [pkGroups_eq]; exact hgmem) hkg
      obtain ⟨kw, hshape⟩ := groupsFormed_shape _ _ _ _ [] (m, g) hgmem
      simp only [Prod.mk.injEq] at hshape
      have hcons : kw :: (get_synonyms lemmas kw).filter
          (fun q => decide (q ∈ singulars sn all_keywords)) = [k] := by
        have hcons0 : groupOf (fun q => decide (q ∈ singulars sn all_keywords))
            (get_synonyms lemmas) kw = [k] := by
          rw [← hshape.2]
          exact hg1
        rw [groupOf] at hcons0
        exact hcons0
      have hkwk := (List.cons_eq_cons.1 hcons).1
      have hfil := (List.cons_eq_cons.1 hcons).2
      have hm : m = k := by
        rw [hshape.1, mainOf, hfil, hkwk]
        rfl
      rw [hm]
  · intro ks hnd hall
    rw [update_image_keywords]
    have hpoint : ∀ x ∈ ks,
        (match lookup? (process_keywords sn lemmas all_keywords).2
            (handle_plurals sn (strLower x)) with
          | some canonical => canonical
          | none => handle_plurals sn (strLower x)) = x := by
      intro x hx
      obtain ⟨h1, h2, h3⟩ := hall x hx
      rw [h1, h2, h3]
    have hmap : ks.map (fun keyword =>
        match lookup? (process_keywords sn lemmas all_keywords).2
            (handle_plurals sn (strLower keyword)) with
          | some canonical => canonical
          | none => handle_plurals sn (strLower keyword)) = ks := by
      calc ks.map _ = ks.map id := List.map_congr_left hpoint
        _ = ks := List.map_id ks
    rw [hmap]
    exact firstOccs_eq_self ks hnd

/-- Witness for C8's amended theorem: the spec's "whale" scenario — a corpus
whose only keyword is "whale", with no synonyms, maps "whale" to itself and
leaves a file with keyword set `{"whale"}` unchanged. -/
theorem c8_witness :
    lookup? (process_keywords exSnNone exLemNone ["whale"]).2 "whale" =
        some "whale" ∧
      update_image_keywords exSnNone ["whale"]
        (process_keywords exSnNone exLemNone ["whale"]).2 = ["whale"] :=
  ⟨(c8_theorem exSnNone exLemNone ["whale"]).1 "whale" (by decide)
      (by decide) (by decide),
   (c8_theorem exSnNone exLemNone ["whale"]).2 ["whale"] (by decide)
      (by decide)⟩

/-- Claim C3: composing the two phases, a metadata write is attempted for a
file (it receives a request in `update_metadata (process_directory ...)`) if
and only if the file was successfully collected and its canonicalized keyword
set — after singularization and canonical substitution by
`update_image_keywords` — differs, as a set (order-independent `toFinset`
equality), from its originally extracted keyword set; files whose set is
unchanged are never written. -/
theorem c3_theorem (sn : String → Option String)
    (lemmas : String → List String) (et : String → Except String Metadata)
    (paths : List String) (p : String) :
    (∃ tags, (p, tags) ∈
        update_metadata (process_directory sn lemmas et paths)) ↔
      ∃ ks, (p, ks) ∈ (collect et paths).file_keywords ∧
        ¬ (update_image_keywords sn ks
            (process_keywords sn lemmas
              (collect et paths).all_keywords).2).toFinset = ks.toFinset := by
  constructor
  · rintro ⟨tags, htags⟩
    rw [update_metadata] at htags
    rcases List.mem_map.1 htags with ⟨⟨q, u⟩, hmem, heq⟩
    simp only [Prod.mk.injEq] at heq
    rw [process_directory_eq] at hmem
    rcases List.mem_filterMap.1 hmem with ⟨⟨q', ks⟩, hks, hcond⟩
    by_cases hse : setEq (update_image_keywords sn ks
        (process_keywords sn lemmas
          (collect et paths).all_keywords).2) ks = true
    · rw [if_pos hse] at hcond
      exact absurd hcond (by simp)
    · rw [if_neg hse] at hcond
      simp only [Option.some.injEq, Prod.mk.injEq] at hcond
      refine ⟨ks, ?_, ?_⟩
      · rw [← heq.1, ← hcond.1]
        exact hks
      · intro hset
        exact hse ((setEq_iff _ _).2 hset)
  · rintro ⟨ks, hks, hne⟩
    refine ⟨writeTags (update_image_keywords sn ks
      (process_keywords sn lemmas (collect et paths).all_keywords).2), ?_⟩
    rw [update_metadata]
    refine List.mem_map.2 ⟨(p, update_image_keywords sn ks
      (process_keywords sn lemmas (collect et paths).all_keywords).2),
      ?_, rfl⟩
    rw [process_directory_eq]
    refine List.mem_filterMap.2 ⟨(p, ks), hks, ?_⟩
    rw [if_neg ?hcond]
    case hcond =>
      intro hse
      exact hne ((setEq_iff _ _).1 hse)

/-- Claim C4: when extraction raises for one file `p` in a batch, that file
is excluded from all later stages with no partial result retained: the
per-file keyword map and the aggregate keyword list are exactly those of the
batch without `p`, the error output gains exactly one line naming `p`
(inserted in position), `p` appears under no keyword set in the per-file
map, and the remaining files are collected unaffected. -/
theorem c4_theorem (et : String → Except String Metadata)
    (xs ys : List String) (p msg : String) (h : et p = .error msg) :
    (collect et (xs ++ p :: ys)).file_keywords =
        (collect et (xs ++ ys)).file_keywords ∧
      (collect et (xs ++ p :: ys)).all_keywords =
        (collect et (xs ++ ys)).all_keywords ∧
      (collect et (xs ++ p :: ys)).errLines =
        (collect et xs).errLines ++ errorLine p msg ::
          (collectFrom et ⟨(collect et xs).file_keywords,
            (collect et xs).all_keywords, []⟩ ys).errLines ∧
      (collect et (xs ++ ys)).errLines =
        (collect et xs).errLines ++
          (collectFrom et ⟨(collect et xs).file_keywords,
            (collect et xs).all_keywords, []⟩ ys).errLines ∧
      (∀ ks, (p, ks) ∉ (collect et (xs ++ p :: ys)).file_keywords) := by
  have e1 : collect et (xs ++ p :: ys) =
      collectFrom et (collectStep et (collect et xs) p) ys := by
    rw [collect, collectFrom_append et xs (p :: ys) ⟨[], [], []⟩, collectFrom]
    rfl
  have estep : collectStep et (collect et xs) p =
      ⟨(collect et xs).file_keywords, (collect et xs).all_keywords,
        (collect et xs).errLines ++ [errorLine p msg]⟩ := by
    simp only [collectStep, h]
  have e2 : collect et (xs ++ ys) =
      collectFrom et ⟨(collect et xs).file_keywords,
        (collect et xs).all_keywords, (collect et xs).errLines⟩ ys := by
    rw [collect, collectFrom_append et xs ys ⟨[], [], []⟩]
    rfl
  have E1 : collect et (xs ++ p :: ys) =
      ⟨(collectFrom et ⟨(collect et xs).file_keywords,
          (collect et xs).all_keywords, []⟩ ys).file_keywords,
        (collectFrom et ⟨(collect et xs).file_keywords,
          (collect et xs).all_keywords, []⟩ ys).all_keywords,
        ((collect et xs).errLines ++ [errorLine p msg]) ++
          (collectFrom et ⟨(collect et xs).file_keywords,
            (collect et xs).all_keywords, []⟩ ys).errLines⟩ := by
    rw [e1, estep, collectFrom_split]
  have E2 : collect et (xs ++ ys) =
      ⟨(collectFrom et ⟨(collect et xs).file_keywords,
          (collect et xs).all_keywords, []⟩ ys).file_keywords,
        (collectFrom et ⟨(collect et xs).file_keywords,
          (collect et xs).all_keywords, []⟩ ys).all_keywords,
        (collect et xs).errLines ++
          (collectFrom et ⟨(collect et xs).file_keywords,
            (collect et xs).all_keywords, []⟩ ys).errLines⟩ := by
    rw [e2, collectFrom_split]
  refine ⟨?_, ?_, ?_, ?_, ?_⟩
  · rw [E1, E2]
  · rw [E1, E2]
  · rw [E1]
    simp [List.append_assoc]
  · rw [E2]
  · intro ks hmem
    rcases collect_mem_ok et (xs ++ p :: ys) ⟨[], [], []⟩ p ks hmem
      with h' | h'
    · simp at h'
    · obtain ⟨md, hmd, _⟩ := h'
      rw [h] at hmd
      exact absurd hmd (by simp)

/-- Witness for C4: the spec's scenario of a five-file batch in which exactly
the third file raises; the other four are collected as if `f3` were absent
and a single error line naming `f3` is printed. -/
theorem c4_witness :
    (collect exEt5 (["f1", "f2"] ++ "f3" :: ["f4", "f5"])).file_keywords =
        (collect exEt5 (["f1", "f2"] ++ ["f4", "f5"])).file_keywords ∧
      (collect exEt5 (["f1", "f2"] ++ "f3" :: ["f4", "f5"])).all_keywords =
        (collect exEt5 (["f1", "f2"] ++ ["f4", "f5"])).all_keywords ∧
      (collect exEt5 (["f1", "f2"] ++ "f3" :: ["f4", "f5"])).errLines =
        (collect exEt5 ["f1", "f2"]).errLines ++ errorLine "f3" "boom" ::
          (collectFrom exEt5 ⟨(collect exEt5 ["f1", "f2"]).file_keywords,
            (collect exEt5 ["f1", "f2"]).all_keywords, []⟩
            ["f4", "f5"]).errLines ∧
      (collect exEt5 (["f1", "f2"] ++ ["f4", "f5"])).errLines =
        (collect exEt5 ["f1", "f2"]).errLines ++
          (collectFrom exEt5 ⟨(collect exEt5 ["f1", "f2"]).file_keywords,
            (collect exEt5 ["f1", "f2"]).all_keywords, []⟩
            ["f4", "f5"]).errLines ∧
      (∀ ks, ("f3", ks) ∉
        (collect exEt5 (["f1", "f2"] ++ "f3" :: ["f4", "f5"])).file_keywords) :=
  c4_theorem exEt5 ["f1", "f2"] ["f4", "f5"] "f3" "boom" rfl
